import Mathlib

/-!
Formal model of the sustainability-score engine: the weight-resolution and
suggestion-merge logic of `app.py`, the scoring functions of `scoring.py`,
and the rule table of `suggestions.py`.

Modelling conventions:
* Python floats are modelled as exact rationals (`ℚ`); tolerance claims
  (±1e-9) become exact statements.
* Python's `round(x, 2)` is modelled as round-half-to-even at two decimal
  places on `ℚ` (`roundHalfEven`, `round2`).
* A Python value that raises inside `float(...)` is modelled as `none`;
  a successfully parsed number is `some q`.
* `Except` models functions that may raise: `.error` is a raised exception,
  `.ok` a normal return.
-/

/-- Normalization ceilings from `config.py`
(environment defaults: GWP 50, cost 100, circularity 100). -/
def GWP_MAX : ℚ := 50

/-- Cost ceiling from `config.py`. -/
def COST_MAX : ℚ := 100

/-- Circularity ceiling from `config.py`. -/
def CIRCULARITY_MAX : ℚ := 100

/-- `scoring.clamp`: restrict `value` to `[lower_bound, upper_bound]`
(Python `max(lower_bound, min(upper_bound, value))`). -/
def clamp (value lower_bound upper_bound : ℚ) : ℚ :=
  max lower_bound (min upper_bound value)

/-- `scoring.normalize_bad`: normalize a bad metric (higher = worse) to 0–100. -/
def normalize_bad (raw_value max_value : ℚ) : ℚ :=
  if max_value ≤ 0 then 100
  else (1 - clamp raw_value 0 max_value / max_value) * 100

/-- `scoring.normalize_good`: normalize a good metric (higher = better) to 0–100. -/
def normalize_good (raw_value max_value : ℚ) : ℚ :=
  if max_value ≤ 0 then 100
  else clamp raw_value 0 max_value / max_value * 100

/-- `scoring.map_rating`: convert a numeric score into a letter rating,
tested high-to-low, first match wins. -/
def map_rating (score : ℚ) : String :=
  if 90 ≤ score then "A+"
  else if 80 ≤ score then "A"
  else if 70 ≤ score then "B"
  else if 60 ≤ score then "C"
  else "D"

/-- Round-half-to-even to the nearest integer (the tie rule of Python `round`). -/
def roundHalfEven (x : ℚ) : ℤ :=
  let f : ℤ := ⌊x⌋
  let r : ℚ := x - f
  if r < 1 / 2 then f
  else if 1 / 2 < r then f + 1
  else if f % 2 = 0 then f else f + 1

/-- Python `round(x, 2)`: round to two decimal places. -/
def round2 (x : ℚ) : ℚ := (roundHalfEven (100 * x) : ℚ) / 100

/-- A resolved weight vector: the three fixed metric keys of
`DEFAULT_WEIGHTS` / `parse_weights` in `app.py` and `config.py`. -/
structure Weights where
  gwp : ℚ
  circularity : ℚ
  cost : ℚ
  deriving DecidableEq

/-- Per-metric optional overrides for `parse_weights`. A key maps to
`some q` when the source dict/query supplies a value that `float(...)`
accepts, and to `none` when the key is absent, the value is unparseable,
or (for the payload) `weights` is not a dict: in every such case the code
keeps the previous value. -/
structure WeightOverrides where
  gwp : Option ℚ
  circularity : Option ℚ
  cost : Option ℚ

/-- One overwrite pass of `parse_weights`: for each of the three metric
keys, a supplied parseable value replaces the current one. -/
def applyOverrides (current : Weights) (ov : WeightOverrides) : Weights :=
  { gwp := ov.gwp.getD current.gwp
    circularity := ov.circularity.getD current.circularity
    cost := ov.cost.getD current.cost }

/-- The merged (pre-normalization) weights of `parse_weights`: defaults,
then the JSON-payload pass, then the query-string pass. -/
def mergedWeights (defaults : Weights) (payloadW queryW : WeightOverrides) : Weights :=
  applyOverrides (applyOverrides defaults payloadW) queryW

/-- `sum(chosen_weights.values())` for a resolved weight vector. -/
def weightsTotal (w : Weights) : ℚ := w.gwp + w.circularity + w.cost

/-- `app.parse_weights`: merge defaults, payload weights and query-string
overrides, then divide by the sum. Python's `sum(...) or 1.0` substitutes
the divisor `1.0` exactly when the sum is `0.0` (falsy); any non-zero sum,
negative included, is used as-is. `defaults` is `DEFAULT_WEIGHTS`, which
`config.py` reads from the environment, so it is left as a parameter. -/
def parse_weights (defaults : Weights) (payloadW queryW : WeightOverrides) : Weights :=
  let chosen_weights := mergedWeights defaults payloadW queryW
  let total_weight_sum := if weightsTotal chosen_weights = 0 then 1 else weightsTotal chosen_weights
  { gwp := chosen_weights.gwp / total_weight_sum
    circularity := chosen_weights.circularity / total_weight_sum
    cost := chosen_weights.cost / total_weight_sum }

/-- `config.DEFAULT_WEIGHTS` under the environment defaults
(`0.5`, `0.3`, `0.2`). -/
def DEFAULT_WEIGHTS : Weights := ⟨1 / 2, 3 / 10, 1 / 5⟩

/-- A Python dict of weighting factors, as passed to `compute_score`:
string keys to float values. A dict is modelled as its association list
(dict keys are unique; insertion order preserved). -/
abbrev WeightsMap := List (String × ℚ)

/-- Dict access `d[key]` / membership, returning the value when present.
Python dict keys are unique, so first-match lookup is exact. -/
def dictGet : WeightsMap → String → Option ℚ
  | [], _ => none
  | (k, v) :: rest, key => if k = key then some v else dictGet rest key

/-- `sum(weights.values())`. -/
def sumValues (w : WeightsMap) : ℚ := (w.map fun kv => kv.2).sum

/-- Step 2 of `compute_score`: the dict comprehension dividing every value
by `sum(weights.values()) or 1.0`. -/
def normalizedWeightsMap (w : WeightsMap) : WeightsMap :=
  let total_weight_sum := if sumValues w = 0 then 1 else sumValues w
  w.map fun kv => (kv.1, kv.2 / total_weight_sum)

/-- The three sub-scores returned by `compute_score` for debugging/charts. -/
structure Subscores where
  gwp : ℚ
  circularity : ℚ
  cost : ℚ
  deriving DecidableEq

/-- Step 3 of `compute_score`: the weighted composite expression. -/
def weightedComposite (gwp_subscore circularity_subscore cost_subscore wg wc wk : ℚ) : ℚ :=
  gwp_subscore * wg + circularity_subscore * wc + cost_subscore * wk

/-- `scoring.compute_score`: normalize the three metrics, re-normalize the
weights, and return the rounded composite plus the sub-scores. The dict
accesses `normalized_weights["gwp"]`, `["circularity"]`, `["cost"]` raise
`KeyError` (modelled as `.error`) when a key is missing, in that order. -/
def compute_score (gwp circularity cost : ℚ) (weights : WeightsMap) :
    Except String (ℚ × Subscores) :=
  let gwp_subscore := normalize_bad gwp GWP_MAX
  let circularity_subscore := normalize_good circularity CIRCULARITY_MAX
  let cost_subscore := normalize_bad cost COST_MAX
  let normalized_weights := normalizedWeightsMap weights
  match dictGet normalized_weights "gwp" with
  | none => .error "KeyError: gwp"
  | some wg =>
    match dictGet normalized_weights "circularity" with
    | none => .error "KeyError: circularity"
    | some wc =>
      match dictGet normalized_weights "cost" with
      | none => .error "KeyError: cost"
      | some wk =>
        .ok (round2 (weightedComposite gwp_subscore circularity_subscore cost_subscore wg wc wk),
          ⟨gwp_subscore, circularity_subscore, cost_subscore⟩)

/-- The raw request payload dict, restricted to the fields the rule table
of `suggestions.py` inspects. Encoding of Python behaviours:
* `transport`, `packaging`: the result of `str(product.get(key, ""))`,
  which never raises (lower-casing is applied inside the predicates, as in
  the source).
* `materials`: `none` when iterating `product.get("materials", [])` raises
  (non-iterable value); otherwise the items, each `some s` for a string
  item and `none` for a non-string item (filtered by `isinstance`).
* `weight_grams`, `circularity`, `gwp`, `cost`: the result of
  `float(product.get(key, 0))`; `none` when the conversion raises. -/
structure Payload where
  transport : String
  materials : Option (List (Option String))
  packaging : String
  weight_grams : Option ℚ
  circularity : Option ℚ
  gwp : Option ℚ
  cost : Option ℚ

/-- A rule of the `RULES` table: a predicate on the payload (which may
raise, modelled by `Except`) paired with a suggestion message. -/
abbrev Rule := (Payload → Except Unit Bool) × String

/-- Character-by-character lower-casing. -/
def lowerChars : List Char → List Char
  | [] => []
  | c :: cs => c.toLower :: lowerChars cs

/-- Python `str.lower()` (character-by-character lower-casing). -/
def strLower (s : String) : String := ⟨lowerChars s.data⟩

/-- Whether `pattern` is a leading run of `chars` (character-level). -/
def charsLead : List Char → List Char → Bool
  | [], _ => true
  | _ :: _, [] => false
  | a :: pat, b :: chars => a == b && charsLead pat chars

/-- Whether `pattern` occurs contiguously inside `chars`:
Python's `pattern in s` substring test. -/
def charsHaveSub (pattern : List Char) : List Char → Bool
  | [] => charsLead pattern []
  | b :: chars => charsLead pattern (b :: chars) || charsHaveSub pattern chars

/-- Python `pattern in s` on strings. -/
def strHasSub (pattern s : String) : Bool := charsHaveSub pattern.toList s.toList

/-- The shared shape of the three materials rules: `any("x" in m.lower()
for m in product.get("materials", []) if isinstance(m, str))`. Raises when
`materials` is not iterable. -/
def materialsAnySub (pattern : String) (product : Payload) : Except Unit Bool :=
  match product.materials with
  | none => .error ()
  | some items =>
    .ok (items.any fun item =>
      match item with
      | some s => strHasSub pattern (strLower s)
      | none => false)

/-- `RULES[0]`: air transport. -/
def transportAirRule : Rule :=
  (fun product => .ok (strLower product.transport == "air"),
   "Avoid air transport where possible; prefer sea or rail to cut emissions.")

/-- `RULES[1]`: road or truck transport. -/
def transportRoadRule : Rule :=
  (fun product =>
    .ok (strLower product.transport == "road" || strLower product.transport == "truck"),
   "Optimize logistics and consolidate shipments to reduce road-miles.")

/-- `RULES[2]`: any material contains "plastic". -/
def plasticRule : Rule :=
  (materialsAnySub "plastic",
   "Reduce or replace plastic with recycled content or bio-based alternatives.")

/-- `RULES[3]`: any material contains "aluminum". -/
def aluminumRule : Rule :=
  (materialsAnySub "aluminum",
   "Use high-recycled-content aluminum and closed-loop scrap recovery.")

/-- `RULES[4]`: any material contains "steel". -/
def steelRule : Rule :=
  (materialsAnySub "steel",
   "Prefer low-carbon (EAF) steel or suppliers with verified green steel.")

/-- `RULES[5]`: packaging not in the recyclable/biodegradable/compostable set. -/
def packagingSwitchRule : Rule :=
  (fun product =>
    .ok (!(strLower product.packaging == "recyclable"
        || strLower product.packaging == "biodegradable"
        || strLower product.packaging == "compostable")),
   "Switch to recyclable/compostable packaging and minimize material usage.")

/-- `RULES[6]`: packaging is exactly "recyclable". -/
def packagingRecyclableRule : Rule :=
  (fun product => .ok (strLower product.packaging == "recyclable"),
   "Add clear recycling instructions and minimize inks/laminates.")

/-- `RULES[7]`: `float(product.get("weight_grams", 0)) > 500`. -/
def weightRule : Rule :=
  (fun product =>
    match product.weight_grams with
    | none => .error ()
    | some w => .ok (decide (500 < w)),
   "Lightweight the product via design-for-minimal-mass and material swaps.")

/-- `RULES[8]`: `float(product.get("circularity", 0)) < 60`. -/
def circularityRule : Rule :=
  (fun product =>
    match product.circularity with
    | none => .error ()
    | some c => .ok (decide (c < 60)),
   "Increase circularity: design for disassembly, repairability, and parts reuse.")

/-- `RULES[9]`: `float(product.get("gwp", 0)) > 20`. -/
def gwpRule : Rule :=
  (fun product =>
    match product.gwp with
    | none => .error ()
    | some g => .ok (decide (20 < g)),
   "Target high-impact stages (materials & transport) to lower GWP substantially.")

/-- `RULES[10]`: `float(product.get("cost", 0)) > 50`. -/
def costRule : Rule :=
  (fun product =>
    match product.cost with
    | none => .error ()
    | some c => .ok (decide (50 < c)),
   "Lower cost via material optimization, supplier consolidation, or design simplification.")

/-- The fixed `RULES` table of `suggestions.py`, in source order. -/
def RULES : List Rule :=
  [transportAirRule, transportRoadRule, plasticRule, aluminumRule, steelRule,
   packagingSwitchRule, packagingRecyclableRule, weightRule, circularityRule,
   gwpRule, costRule]

/-- The fallback suggestion appended when no rule fires. -/
def fallbackMessage : String :=
  "Product already performs well; focus on supplier transparency and continuous improvement."

/-- The evaluation loop of `rule_based_suggestions`: try each rule; a
predicate that raises is skipped (`except: continue`); a triggering
predicate appends its message unless the message was already collected.
The `used_suggestion_texts` set always holds exactly the elements of
`suggestion_list`, so membership in the accumulator models it. -/
def collectTriggered : List String → List Rule → Payload → List String
  | acc, [], _ => acc
  | acc, (predicate_fn, suggestion_text) :: rest, product =>
    match predicate_fn product with
    | .ok true =>
      if suggestion_text ∉ acc then
        collectTriggered (acc ++ [suggestion_text]) rest product
      else
        collectTriggered acc rest product
    | .ok false => collectTriggered acc rest product
    | .error _ => collectTriggered acc rest product

/-- `suggestions.rule_based_suggestions`: evaluate the rule table and fall
back to the fixed message when nothing triggered. -/
def rule_based_suggestions (product : Payload) : List String :=
  let suggestion_list := collectTriggered [] RULES product
  if suggestion_list = [] then [fallbackMessage] else suggestion_list

/-- The merge loop of the `/score` route in `app.py`: walk the
concatenated rule-based and AI lists, keeping each non-empty string the
first time it is seen (`seen_suggestions` always holds exactly the
elements of the accumulator). -/
def mergeGo : List String → List String → List String
  | acc, [] => acc
  | acc, suggestion_text :: rest =>
    if suggestion_text ≠ "" ∧ suggestion_text ∉ acc then
      mergeGo (acc ++ [suggestion_text]) rest
    else
      mergeGo acc rest

/-- `mergeSuggestions` (the merge step of the `/score` route):
rule-based suggestions first, then AI suggestions, deduplicated. -/
def mergeSuggestions (rule_suggestion_list ai_suggestion_list : List String) : List String :=
  mergeGo [] (rule_suggestion_list ++ ai_suggestion_list)

/-- Keep-first deduplication as the specification describes the merged
sequence: drop empty strings, keep the first occurrence of every string
and erase its later duplicates. -/
def dedupKeepFirst : List String → List String
  | [] => []
  | s :: rest =>
    if s = "" then dedupKeepFirst rest
    else s :: dedupKeepFirst (rest.filter fun t => t ≠ s)
termination_by l => l.length
decreasing_by
  · simp
  · simp only [List.length_cons, Nat.lt_succ_iff]
    exact List.length_filter_le _ _

/-- C3: `map_rating` classifies with lower-edge-inclusive boundaries,
evaluated high-to-low, first match wins: `≥ 90 → "A+"`, `[80, 90) → "A"`,
`[70, 80) → "B"`, `[60, 70) → "C"`, `< 60 → "D"`; in particular
89.99→"A", 90→"A+", 79.99→"B", 80→"A", 69.99→"C", 70→"B", 59.99→"D",
60→"C". -/
theorem map_rating_boundaries (s : ℚ) :
    (90 ≤ s → map_rating s = "A+") ∧
    (80 ≤ s ∧ s < 90 → map_rating s = "A") ∧
    (70 ≤ s ∧ s < 80 → map_rating s = "B") ∧
    (60 ≤ s ∧ s < 70 → map_rating s = "C") ∧
    (s < 60 → map_rating s = "D") ∧
    map_rating (8999 / 100) = "A" ∧ map_rating 90 = "A+" ∧
    map_rating (7999 / 100) = "B" ∧ map_rating 80 = "A" ∧
    map_rating (6999 / 100) = "C" ∧ map_rating 70 = "B" ∧
    map_rating (5999 / 100) = "D" ∧ map_rating 60 = "C" := by
  refine ⟨fun h => ?_, fun h => ?_, fun h => ?_, fun h => ?_, fun h => ?_,
    ?_, ?_, ?_, ?_, ?_, ?_, ?_, ?_⟩
  all_goals simp only [map_rating]
  all_goals split_ifs <;> first | rfl | (exfalso; (try obtain ⟨h1, h2⟩ := h); linarith)

/-- C3 witness: the five bucket implications applied at concrete scores. -/
theorem map_rating_boundaries_witness :
    map_rating 95 = "A+" ∧ map_rating 85 = "A" ∧ map_rating 75 = "B" ∧
    map_rating 65 = "C" ∧ map_rating 10 = "D" :=
  ⟨(map_rating_boundaries 95).1 (by norm_num),
   (map_rating_boundaries 85).2.1 (by norm_num),
   (map_rating_boundaries 75).2.2.1 (by norm_num),
   (map_rating_boundaries 65).2.2.2.1 (by norm_num),
   (map_rating_boundaries 10).2.2.2.2.1 (by norm_num)⟩

/-- C7: for every ceiling `C > 0` and every `x ∈ [0, C]`,
`normalize_good x C = 100 - normalize_bad x C`. -/
theorem normalize_good_complement (x C : ℚ) (hC : 0 < C) (_hx0 : 0 ≤ x) (_hxC : x ≤ C) :
    normalize_good x C = 100 - normalize_bad x C := by
  have hnC : ¬ C ≤ 0 := not_le.mpr hC
  simp only [normalize_good, normalize_bad, if_neg hnC]
  ring

/-- C7 witness: the complement identity at `x = 1`, `C = 2`. -/
theorem normalize_good_complement_witness :
    normalize_good 1 2 = 100 - normalize_bad 1 2 :=
  normalize_good_complement 1 2 (by norm_num) (by norm_num) (by norm_num)

/-- C1 counterexample: with the default weights, (a) the all-zero payload
`{"gwp": 0, "circularity": 0, "cost": 0}` makes the resolved weights sum
to `0`, not to `1.0 ± 1e-9`; (b) the payload `{"gwp": -1,
"circularity": 1, "cost": 0}` yields a negative resolved weight; (c) the
payload `{"gwp": -1, "circularity": -1, "cost": -1}` has merged sum
`-3 ≤ 0`, yet the divisor used is `-3`, not `1.0` — dividing by `1.0`
would have returned the merged weights unchanged. -/
theorem parse_weights_claim_counterexample :
    weightsTotal (parse_weights DEFAULT_WEIGHTS ⟨some 0, some 0, some 0⟩ ⟨none, none, none⟩) = 0 ∧
    ¬ |weightsTotal (parse_weights DEFAULT_WEIGHTS ⟨some 0, some 0, some 0⟩
          ⟨none, none, none⟩) - 1| ≤ 1 / 1000000000 ∧
    (parse_weights DEFAULT_WEIGHTS ⟨some (-1), some 1, some 0⟩ ⟨none, none, none⟩).gwp < 0 ∧
    weightsTotal (mergedWeights DEFAULT_WEIGHTS ⟨some (-1), some (-1), some (-1)⟩
        ⟨none, none, none⟩) ≤ 0 ∧
    parse_weights DEFAULT_WEIGHTS ⟨some (-1), some (-1), some (-1)⟩ ⟨none, none, none⟩
      ≠ mergedWeights DEFAULT_WEIGHTS ⟨some (-1), some (-1), some (-1)⟩ ⟨none, none, none⟩ := by
  refine ⟨?_, ?_, ?_, ?_, ?_⟩ <;>
    norm_num [parse_weights, mergedWeights, applyOverrides, weightsTotal, DEFAULT_WEIGHTS,
      Weights.mk.injEq, abs_le]

/-- C1 amended: `parse_weights` divides the merged weights by their sum,
substituting the divisor `1.0` exactly when the merged sum is `0`
(in which case the merged weights are returned unchanged, so an all-zero
merge sums to `0`, not `1`); whenever every merged weight is non-negative
and the merged sum is positive, the three resolved weights are
non-negative and sum to exactly `1`. -/
theorem parse_weights_amended (defaults : Weights) (payloadW queryW : WeightOverrides) :
    (weightsTotal (mergedWeights defaults payloadW queryW) = 0 →
      parse_weights defaults payloadW queryW = mergedWeights defaults payloadW queryW) ∧
    (0 ≤ (mergedWeights defaults payloadW queryW).gwp →
      0 ≤ (mergedWeights defaults payloadW queryW).circularity →
      0 ≤ (mergedWeights defaults payloadW queryW).cost →
      0 < weightsTotal (mergedWeights defaults payloadW queryW) →
      0 ≤ (parse_weights defaults payloadW queryW).gwp ∧
        0 ≤ (parse_weights defaults payloadW queryW).circularity ∧
        0 ≤ (parse_weights defaults payloadW queryW).cost ∧
        weightsTotal (parse_weights defaults payloadW queryW) = 1) := by
  constructor
  · intro h0
    simp [parse_weights, h0]
  · intro hg hc hk hpos
    have hne : weightsTotal (mergedWeights defaults payloadW queryW) ≠ 0 := ne_of_gt hpos
    simp only [parse_weights, if_neg hne]
    refine ⟨div_nonneg hg (le_of_lt hpos), div_nonneg hc (le_of_lt hpos),
      div_nonneg hk (le_of_lt hpos), ?_⟩
    simp only [weightsTotal]
    rw [div_add_div_same, div_add_div_same]
    exact div_self hne

/-- C1 witness: the zero-sum fallback branch at an all-zero merge, and the
normalization branch at the default weights with no overrides. -/
theorem parse_weights_amended_witness :
    parse_weights ⟨0, 0, 0⟩ ⟨none, none, none⟩ ⟨none, none, none⟩
        = mergedWeights ⟨0, 0, 0⟩ ⟨none, none, none⟩ ⟨none, none, none⟩ ∧
      weightsTotal (parse_weights DEFAULT_WEIGHTS ⟨none, none, none⟩ ⟨none, none, none⟩) = 1 :=
  ⟨(parse_weights_amended ⟨0, 0, 0⟩ ⟨none, none, none⟩ ⟨none, none, none⟩).1
      (by norm_num [mergedWeights, applyOverrides, weightsTotal]),
   ((parse_weights_amended DEFAULT_WEIGHTS ⟨none, none, none⟩ ⟨none, none, none⟩).2
      (by norm_num [mergedWeights, applyOverrides, DEFAULT_WEIGHTS])
      (by norm_num [mergedWeights, applyOverrides, DEFAULT_WEIGHTS])
      (by norm_num [mergedWeights, applyOverrides, DEFAULT_WEIGHTS])
      (by norm_num [mergedWeights, applyOverrides, weightsTotal, DEFAULT_WEIGHTS])).2.2.2⟩

theorem dedupKeepFirst_sublist (l : List String) : List.Sublist (dedupKeepFirst l) l := by
  induction l using dedupKeepFirst.induct with
  | case1 => simp [dedupKeepFirst]
  | case2 rest ih =>
    rw [dedupKeepFirst, if_pos rfl]
    exact ih.trans (List.sublist_cons_self _ _)
  | case3 s rest hs ih =>
    rw [dedupKeepFirst, if_neg hs]
    exact (ih.trans (List.filter_sublist _)).cons₂ s

theorem empty_not_mem_dedupKeepFirst (l : List String) : "" ∉ dedupKeepFirst l := by
  induction l using dedupKeepFirst.induct with
  | case1 => simp [dedupKeepFirst]
  | case2 rest ih =>
    rw [dedupKeepFirst, if_pos rfl]
    exact ih
  | case3 s rest hs ih =>
    rw [dedupKeepFirst, if_neg hs]
    intro hmem
    rcases List.mem_cons.mp hmem with h | h
    · exact hs h.symm
    · exact ih h

theorem dedupKeepFirst_nodup (l : List String) : (dedupKeepFirst l).Nodup := by
  induction l using dedupKeepFirst.induct with
  | case1 => simp [dedupKeepFirst]
  | case2 rest ih =>
    rw [dedupKeepFirst, if_pos rfl]
    exact ih
  | case3 s rest hs ih =>
    rw [dedupKeepFirst, if_neg hs]
    refine List.nodup_cons.mpr ⟨fun hmem => ?_, ih⟩
    have := (dedupKeepFirst_sublist _).subset hmem
    have := (List.mem_filter.mp this).2
    simp at this

theorem mergeGo_eq_dedupKeepFirst (l : List String) :
    ∀ acc : List String, mergeGo acc l = acc ++ dedupKeepFirst (l.filter fun s => decide (s ∉ acc)) := by
  induction l with
  | nil => intro acc; simp [mergeGo, dedupKeepFirst]
  | cons s rest ih =>
    intro acc
    by_cases hs : s = ""
    · subst hs
      rw [mergeGo, if_neg (by simp)]
      by_cases hmem : "" ∈ acc
      · rw [List.filter_cons_of_neg (by simp [hmem])]
        exact ih acc
      · rw [List.filter_cons_of_pos (by simp [hmem]), dedupKeepFirst, if_pos rfl]
        exact ih acc
    · by_cases hmem : s ∈ acc
      · rw [mergeGo, if_neg (by simp [hmem]), List.filter_cons_of_neg (by simp [hmem])]
        exact ih acc
      · rw [mergeGo, if_pos ⟨hs, hmem⟩, List.filter_cons_of_pos (by simp [hmem]),
          dedupKeepFirst, if_neg hs, ih (acc ++ [s]), List.filter_filter]
        have hpred :
            (rest.filter fun a => decide (a ∉ acc ++ [s]))
              = rest.filter fun a => decide (a ≠ s) && decide (a ∉ acc) := by
          apply List.filter_congr
          intro a _
          by_cases h1 : a = s <;> by_cases h2 : a ∈ acc <;>
            simp [h1, h2, List.mem_append]
        rw [hpred]
        simp [List.append_assoc]

/-- C6: the merged suggestion sequence contains no two identical strings,
is a sublist of rule-based entries followed by external entries (so every
surviving rule-based entry precedes every surviving external entry and
relative orders are preserved), and equals keep-first deduplication of the
concatenation (first occurrence wins; falsy empty strings are dropped). -/
theorem mergeSuggestions_nodup_ordered (rule_suggestion_list ai_suggestion_list : List String) :
    (mergeSuggestions rule_suggestion_list ai_suggestion_list).Nodup ∧
    List.Sublist (mergeSuggestions rule_suggestion_list ai_suggestion_list)
      (rule_suggestion_list ++ ai_suggestion_list) ∧
    mergeSuggestions rule_suggestion_list ai_suggestion_list
      = dedupKeepFirst (rule_suggestion_list ++ ai_suggestion_list) := by
  have hfilter : ∀ l : List String, (l.filter fun s => decide (s ∉ ([] : List String))) = l := by
    intro l
    apply List.filter_eq_self.mpr
    intro a _
    simp
  have heq : mergeSuggestions rule_suggestion_list ai_suggestion_list
      = dedupKeepFirst (rule_suggestion_list ++ ai_suggestion_list) := by
    rw [mergeSuggestions, mergeGo_eq_dedupKeepFirst, hfilter, List.nil_append]
  refine ⟨?_, ?_, heq⟩
  · rw [heq]; exact dedupKeepFirst_nodup _
  · rw [heq]; exact dedupKeepFirst_sublist _

theorem collectTriggered_extends (product : Payload) (rules : List Rule) :
    ∀ acc : List String, ∃ t, collectTriggered acc rules product = acc ++ t := by
  induction rules with
  | nil => exact fun acc => ⟨[], (List.append_nil acc).symm⟩
  | cons r rest ih =>
    intro acc
    obtain ⟨predicate_fn, suggestion_text⟩ := r
    rcases hp : predicate_fn product with e | b
    · simpa [collectTriggered, hp] using ih acc
    · rcases b with _ | _
      · simpa [collectTriggered, hp] using ih acc
      · by_cases hmem : suggestion_text ∈ acc
        · simpa [collectTriggered, hp, hmem] using ih acc
        · obtain ⟨t, ht⟩ := ih (acc ++ [suggestion_text])
          exact ⟨suggestion_text :: t, by
            simpa [collectTriggered, hp, hmem, List.append_assoc] using ht⟩

theorem mem_collectTriggered (product : Payload) (rules : List Rule) (x : String) :
    ∀ acc : List String, x ∈ collectTriggered acc rules product →
      x ∈ acc ∨ ∃ r, r ∈ rules ∧ r.2 = x ∧ r.1 product = Except.ok true := by
  induction rules with
  | nil => intro acc h; exact Or.inl (by simpa [collectTriggered] using h)
  | cons r rest ih =>
    intro acc h
    obtain ⟨predicate_fn, suggestion_text⟩ := r
    rcases hp : predicate_fn product with e | b
    · rcases ih acc (by simpa [collectTriggered, hp] using h) with h1 | ⟨r1, hr1, hx1, ht1⟩
      · exact Or.inl h1
      · exact Or.inr ⟨r1, List.mem_cons_of_mem _ hr1, hx1, ht1⟩
    · rcases b with _ | _
      · rcases ih acc (by simpa [collectTriggered, hp] using h) with h1 | ⟨r1, hr1, hx1, ht1⟩
        · exact Or.inl h1
        · exact Or.inr ⟨r1, List.mem_cons_of_mem _ hr1, hx1, ht1⟩
      · by_cases hmem : suggestion_text ∈ acc
        · rcases ih acc (by simpa [collectTriggered, hp, hmem] using h) with h1 | ⟨r1, hr1, hx1, ht1⟩
          · exact Or.inl h1
          · exact Or.inr ⟨r1, List.mem_cons_of_mem _ hr1, hx1, ht1⟩
        · rcases ih (acc ++ [suggestion_text])
              (by simpa [collectTriggered, hp, hmem] using h) with h1 | ⟨r1, hr1, hx1, ht1⟩
          · rcases List.mem_append.mp h1 with h2 | h2
            · exact Or.inl h2
            · exact Or.inr ⟨(predicate_fn, suggestion_text), List.mem_cons_self _ _,
                (List.mem_singleton.mp h2).symm, hp⟩
          · exact Or.inr ⟨r1, List.mem_cons_of_mem _ hr1, hx1, ht1⟩

theorem collectTriggered_nil_iff (product : Payload) (rules : List Rule) :
    collectTriggered [] rules product = [] ↔
      ∀ r ∈ rules, r.1 product ≠ Except.ok true := by
  constructor
  · induction rules with
    | nil => intro _ r hr; exact absurd hr (List.not_mem_nil r)
    | cons r rest ih =>
      intro h r1 hr1
      obtain ⟨predicate_fn, suggestion_text⟩ := r
      rcases hp : predicate_fn product with e | b
      · rcases List.mem_cons.mp hr1 with rfl | h1
        · simp [hp]
        · exact ih (by simpa [collectTriggered, hp] using h) r1 h1
      · rcases b with _ | _
        · rcases List.mem_cons.mp hr1 with rfl | h1
          · simp [hp]
          · exact ih (by simpa [collectTriggered, hp] using h) r1 h1
        · exfalso
          obtain ⟨t, ht⟩ := collectTriggered_extends product rest [suggestion_text]
          have : collectTriggered [] ((predicate_fn, suggestion_text) :: rest) product
              = suggestion_text :: t := by
            simpa [collectTriggered, hp] using ht
          rw [h] at this
          exact List.noConfusion this
  · induction rules with
    | nil => intro _; simp [collectTriggered]
    | cons r rest ih =>
      intro h
      obtain ⟨predicate_fn, suggestion_text⟩ := r
      rcases hp : predicate_fn product with e | b
      · simpa [collectTriggered, hp] using
          ih fun r1 hr1 => h r1 (List.mem_cons_of_mem _ hr1)
      · rcases b with _ | _
        · simpa [collectTriggered, hp] using
            ih fun r1 hr1 => h r1 (List.mem_cons_of_mem _ hr1)
        · exact absurd hp (h (predicate_fn, suggestion_text) (List.mem_cons_self _ _))

theorem fallback_not_rule_message : ∀ r ∈ RULES, r.2 ≠ fallbackMessage := by
  intro r hr
  simp only [RULES, List.mem_cons, List.not_mem_nil, or_false] at hr
  rcases hr with rfl | rfl | rfl | rfl | rfl | rfl | rfl | rfl | rfl | rfl | rfl <;> decide

/-- C4: `rule_based_suggestions` always returns a non-empty sequence, and
it returns exactly `[fallbackMessage]` if and only if no rule predicate of
`RULES` evaluates to `True` on the payload. -/
theorem rule_based_suggestions_fallback_iff (product : Payload) :
    rule_based_suggestions product ≠ [] ∧
    (rule_based_suggestions product = [fallbackMessage] ↔
      ∀ r ∈ RULES, r.1 product ≠ Except.ok true) := by
  by_cases h : collectTriggered [] RULES product = []
  · rw [rule_based_suggestions]
    simp only [h, if_pos rfl]
    exact ⟨List.cons_ne_nil _ _,
      iff_of_true rfl ((collectTriggered_nil_iff product RULES).mp h)⟩
  · rw [rule_based_suggestions]
    simp only [if_neg h]
    refine ⟨h, iff_of_false ?_ ?_⟩
    · intro heq
      have hmem : fallbackMessage ∈ collectTriggered [] RULES product := by
        rw [heq]; exact List.mem_cons_self _ _
      rcases mem_collectTriggered product RULES fallbackMessage [] hmem with h1 | ⟨r, hr, hx, _⟩
      · exact absurd h1 (List.not_mem_nil _)
      · exact fallback_not_rule_message r hr hx
    · intro hno
      exact h ((collectTriggered_nil_iff product RULES).mpr hno)

theorem collectTriggered_error_skip (product : Payload) (r : Rule)
    (hfail : r.1 product = Except.error ()) :
    ∀ (pre post : List Rule) (acc : List String),
      collectTriggered acc (pre ++ r :: post) product
        = collectTriggered acc (pre ++ post) product := by
  intro pre
  induction pre with
  | nil =>
    intro post acc
    obtain ⟨predicate_fn, suggestion_text⟩ := r
    have hfail2 : predicate_fn product = Except.error () := hfail
    simp only [List.nil_append]
    simp [collectTriggered, hfail2]
  | cons q rest ih =>
    intro post acc
    obtain ⟨qpred, qtext⟩ := q
    rcases hq : qpred product with e | b
    · simp [collectTriggered, hq, ih]
    · rcases b with _ | _
      · simp [collectTriggered, hq, ih]
      · by_cases hmem : qtext ∈ acc <;> simp [collectTriggered, hq, hmem, ih]

/-- C5: a rule whose predicate raises is treated as not triggered and the
remaining rules are still evaluated: if `RULES` splits as
`pre ++ failing :: post` and the failing predicate raises on the payload,
`rule_based_suggestions` returns exactly what the table without that rule
produces (and, being a total function, it never raises). -/
theorem rule_based_suggestions_skips_failing (pre post : List Rule) (r : Rule)
    (product : Payload) (hsplit : RULES = pre ++ r :: post)
    (hfail : r.1 product = Except.error ()) :
    rule_based_suggestions product =
      (if collectTriggered [] (pre ++ post) product = [] then [fallbackMessage]
       else collectTriggered [] (pre ++ post) product) := by
  rw [rule_based_suggestions, hsplit, collectTriggered_error_skip product r hfail]

/-- C5 witness: with `weight_grams` unparseable (`float` raises), the
weight rule is skipped and the remaining ten rules still fire as usual. -/
theorem rule_based_suggestions_skips_failing_witness :
    rule_based_suggestions ⟨"air", some [], "recyclable", none, some 80, some 5, some 10⟩ =
      (if collectTriggered []
            ([transportAirRule, transportRoadRule, plasticRule, aluminumRule, steelRule,
              packagingSwitchRule, packagingRecyclableRule] ++
              [circularityRule, gwpRule, costRule])
            ⟨"air", some [], "recyclable", none, some 80, some 5, some 10⟩ = [] then
        [fallbackMessage]
       else
        collectTriggered []
          ([transportAirRule, transportRoadRule, plasticRule, aluminumRule, steelRule,
            packagingSwitchRule, packagingRecyclableRule] ++
            [circularityRule, gwpRule, costRule])
          ⟨"air", some [], "recyclable", none, some 80, some 5, some 10⟩) :=
  rule_based_suggestions_skips_failing
    [transportAirRule, transportRoadRule, plasticRule, aluminumRule, steelRule,
      packagingSwitchRule, packagingRecyclableRule]
    [circularityRule, gwpRule, costRule] weightRule
    ⟨"air", some [], "recyclable", none, some 80, some 5, some 10⟩ rfl rfl

instance : DecidableEq (Except Unit Bool) := fun x y =>
  match x, y with
  | Except.ok a, Except.ok b =>
    if h : a = b then Decidable.isTrue (by rw [h])
    else Decidable.isFalse (fun hc => h (Except.ok.inj hc))
  | Except.error a, Except.error b => Decidable.isTrue (by cases a; cases b; rfl)
  | Except.ok _, Except.error _ => Decidable.isFalse (fun hc => Except.noConfusion hc)
  | Except.error _, Except.ok _ => Decidable.isFalse (fun hc => Except.noConfusion hc)

/-- C8: the two packaging rules of `RULES` are mutually exclusive: the
"switch packaging" rule (packaging outside the compliant set) and the
"recyclable" rule never both trigger on the same payload, since
"recyclable" belongs to the compliant set. -/
theorem packaging_rules_exclusive :
    packagingSwitchRule ∈ RULES ∧ packagingRecyclableRule ∈ RULES ∧
    ∀ product : Payload, packagingSwitchRule.1 product = Except.ok true →
      packagingRecyclableRule.1 product ≠ Except.ok true := by
  refine ⟨by simp [RULES], by simp [RULES], ?_⟩
  intro product h hc
  simp only [packagingSwitchRule, Except.ok.injEq] at h
  simp only [packagingRecyclableRule, Except.ok.injEq] at hc
  simp [hc] at h

/-- C8 witness: with packaging "plastic wrap" the switch rule triggers and
the recyclable rule does not. -/
theorem packaging_rules_exclusive_witness :
    packagingRecyclableRule.1 ⟨"", some [], "plastic wrap", some 0, some 0, some 0, some 0⟩
      ≠ Except.ok true :=
  packaging_rules_exclusive.2.2 ⟨"", some [], "plastic wrap", some 0, some 0, some 0, some 0⟩
    (by decide)

/-- Remove the first entry with the given key (helper for summation
reasoning about dict lookups). -/
def removeFirstKey : WeightsMap → String → WeightsMap
  | [], _ => []
  | (k, v) :: rest, key => if k = key then rest else (k, v) :: removeFirstKey rest key

theorem sumValues_cons (k : String) (v : ℚ) (rest : WeightsMap) :
    sumValues ((k, v) :: rest) = v + sumValues rest := by
  simp [sumValues]

theorem sumValues_nonneg (w : WeightsMap) (hnn : ∀ kv ∈ w, 0 ≤ kv.2) :
    0 ≤ sumValues w := by
  induction w with
  | nil => simp [sumValues]
  | cons kv rest ih =>
    obtain ⟨k, u⟩ := kv
    rw [sumValues_cons]
    have h1 := hnn (k, u) (List.mem_cons_self _ _)
    have h2 := ih fun x hx => hnn x (List.mem_cons_of_mem _ hx)
    have h1 : (0 : ℚ) ≤ u := h1
    linarith

theorem sumValues_removeFirstKey (w : WeightsMap) (key : String) (v : ℚ)
    (h : dictGet w key = some v) :
    sumValues w = v + sumValues (removeFirstKey w key) := by
  induction w with
  | nil => exact absurd h (by simp [dictGet])
  | cons kv rest ih =>
    obtain ⟨k, u⟩ := kv
    by_cases hk : k = key
    · rw [dictGet, if_pos hk] at h
      rw [removeFirstKey, if_pos hk, sumValues_cons, Option.some.inj h]
    · rw [dictGet, if_neg hk] at h
      rw [removeFirstKey, if_neg hk, sumValues_cons, sumValues_cons, ih h]
      ring

theorem dictGet_removeFirstKey (w : WeightsMap) (key other : String) (hne : other ≠ key) :
    dictGet (removeFirstKey w key) other = dictGet w other := by
  induction w with
  | nil => simp [removeFirstKey]
  | cons kv rest ih =>
    obtain ⟨k, u⟩ := kv
    by_cases hk : k = key
    · rw [removeFirstKey, if_pos hk, dictGet, if_neg (by rw [hk]; exact fun h => hne h.symm)]
    · rw [removeFirstKey, if_neg hk]
      by_cases ho : k = other
      · rw [dictGet, if_pos ho, dictGet, if_pos ho]
      · rw [dictGet, if_neg ho, dictGet, if_neg ho, ih]

theorem mem_removeFirstKey (w : WeightsMap) (key : String) (kv : String × ℚ)
    (h : kv ∈ removeFirstKey w key) : kv ∈ w := by
  induction w with
  | nil => simp [removeFirstKey] at h
  | cons hd rest ih =>
    obtain ⟨k, u⟩ := hd
    by_cases hk : k = key
    · rw [removeFirstKey, if_pos hk] at h
      exact List.mem_cons_of_mem _ h
    · rw [removeFirstKey, if_neg hk] at h
      rcases List.mem_cons.mp h with h1 | h1
      · exact h1 ▸ List.mem_cons_self _ _
      · exact List.mem_cons_of_mem _ (ih h1)

theorem mem_removeFirstKey_of_ne (w : WeightsMap) (key : String) (kv : String × ℚ)
    (hmem : kv ∈ w) (hne : kv.1 ≠ key) : kv ∈ removeFirstKey w key := by
  induction w with
  | nil => simp at hmem
  | cons hd rest ih =>
    obtain ⟨k, u⟩ := hd
    by_cases hk : k = key
    · rw [removeFirstKey, if_pos hk]
      rcases List.mem_cons.mp hmem with h1 | h1
      · exact absurd (by rw [h1] at hne ⊢; exact hk) hne
      · exact h1
    · rw [removeFirstKey, if_neg hk]
      rcases List.mem_cons.mp hmem with h1 | h1
      · exact h1 ▸ List.mem_cons_self _ _
      · exact List.mem_cons_of_mem _ (ih h1)

theorem mem_le_sumValues (w : WeightsMap) (kv : String × ℚ)
    (hnn : ∀ x ∈ w, 0 ≤ x.2) (hmem : kv ∈ w) : kv.2 ≤ sumValues w := by
  induction w with
  | nil => simp at hmem
  | cons hd rest ih =>
    obtain ⟨k, u⟩ := hd
    rw [sumValues_cons]
    rcases List.mem_cons.mp hmem with h1 | h1
    · have h2 := sumValues_nonneg rest fun x hx => hnn x (List.mem_cons_of_mem _ hx)
      rw [h1]
      linarith
    · have h2 := ih (fun x hx => hnn x (List.mem_cons_of_mem _ hx)) h1
      have h3 : (0 : ℚ) ≤ u := hnn (k, u) (List.mem_cons_self _ _)
      linarith

theorem three_dictGet_le_sumValues (w : WeightsMap) (vg vc vk : ℚ)
    (hnn : ∀ kv ∈ w, 0 ≤ kv.2)
    (hg : dictGet w "gwp" = some vg)
    (hc : dictGet w "circularity" = some vc)
    (hk : dictGet w "cost" = some vk) :
    vg + vc + vk ≤ sumValues w := by
  set w1 := removeFirstKey w "gwp" with hw1
  have hs1 : sumValues w = vg + sumValues w1 := sumValues_removeFirstKey w "gwp" vg hg
  have hnn1 : ∀ kv ∈ w1, 0 ≤ kv.2 := fun kv hkv => hnn kv (mem_removeFirstKey w "gwp" kv hkv)
  have hc1 : dictGet w1 "circularity" = some vc := by
    rw [hw1, dictGet_removeFirstKey w "gwp" "circularity" (by decide)]; exact hc
  have hk1 : dictGet w1 "cost" = some vk := by
    rw [hw1, dictGet_removeFirstKey w "gwp" "cost" (by decide)]; exact hk
  set w2 := removeFirstKey w1 "circularity" with hw2
  have hs2 : sumValues w1 = vc + sumValues w2 := sumValues_removeFirstKey w1 "circularity" vc hc1
  have hnn2 : ∀ kv ∈ w2, 0 ≤ kv.2 := fun kv hkv => hnn1 kv (mem_removeFirstKey w1 "circularity" kv hkv)
  have hk2 : dictGet w2 "cost" = some vk := by
    rw [hw2, dictGet_removeFirstKey w1 "circularity" "cost" (by decide)]; exact hk1
  set w3 := removeFirstKey w2 "cost" with hw3
  have hs3 : sumValues w2 = vk + sumValues w3 := sumValues_removeFirstKey w2 "cost" vk hk2
  have hnn3 : ∀ kv ∈ w3, 0 ≤ kv.2 := fun kv hkv => hnn2 kv (mem_removeFirstKey w2 "cost" kv hkv)
  have hpos : 0 ≤ sumValues w3 := sumValues_nonneg w3 hnn3
  linarith

theorem three_dictGet_extra_le_sumValues (w : WeightsMap) (vg vc vk : ℚ)
    (extra_key : String) (extra_value : ℚ)
    (hnn : ∀ kv ∈ w, 0 ≤ kv.2)
    (hg : dictGet w "gwp" = some vg)
    (hc : dictGet w "circularity" = some vc)
    (hk : dictGet w "cost" = some vk)
    (hmem : (extra_key, extra_value) ∈ w)
    (hkg : extra_key ≠ "gwp") (hkc : extra_key ≠ "circularity") (hkk : extra_key ≠ "cost") :
    vg + vc + vk + extra_value ≤ sumValues w := by
  set w1 := removeFirstKey w "gwp" with hw1
  have hs1 : sumValues w = vg + sumValues w1 := sumValues_removeFirstKey w "gwp" vg hg
  have hnn1 : ∀ kv ∈ w1, 0 ≤ kv.2 := fun kv hkv => hnn kv (mem_removeFirstKey w "gwp" kv hkv)
  have hc1 : dictGet w1 "circularity" = some vc := by
    rw [hw1, dictGet_removeFirstKey w "gwp" "circularity" (by decide)]; exact hc
  have hk1 : dictGet w1 "cost" = some vk := by
    rw [hw1, dictGet_removeFirstKey w "gwp" "cost" (by decide)]; exact hk
  have hm1 : (extra_key, extra_value) ∈ w1 :=
    mem_removeFirstKey_of_ne w "gwp" (extra_key, extra_value) hmem hkg
  set w2 := removeFirstKey w1 "circularity" with hw2
  have hs2 : sumValues w1 = vc + sumValues w2 := sumValues_removeFirstKey w1 "circularity" vc hc1
  have hnn2 : ∀ kv ∈ w2, 0 ≤ kv.2 := fun kv hkv => hnn1 kv (mem_removeFirstKey w1 "circularity" kv hkv)
  have hk2 : dictGet w2 "cost" = some vk := by
    rw [hw2, dictGet_removeFirstKey w1 "circularity" "cost" (by decide)]; exact hk1
  have hm2 : (extra_key, extra_value) ∈ w2 :=
    mem_removeFirstKey_of_ne w1 "circularity" (extra_key, extra_value) hm1 hkc
  set w3 := removeFirstKey w2 "cost" with hw3
  have hs3 : sumValues w2 = vk + sumValues w3 := sumValues_removeFirstKey w2 "cost" vk hk2
  have hnn3 : ∀ kv ∈ w3, 0 ≤ kv.2 := fun kv hkv => hnn2 kv (mem_removeFirstKey w2 "cost" kv hkv)
  have hm3 : (extra_key, extra_value) ∈ w3 :=
    mem_removeFirstKey_of_ne w2 "cost" (extra_key, extra_value) hm2 hkk
  have hle : extra_value ≤ sumValues w3 := mem_le_sumValues w3 (extra_key, extra_value) hnn3 hm3
  linarith

theorem dictGet_map_value (w : WeightsMap) (f : ℚ → ℚ) (key : String) :
    dictGet (w.map fun kv => (kv.1, f kv.2)) key = (dictGet w key).map f := by
  induction w with
  | nil => simp [dictGet]
  | cons kv rest ih =>
    obtain ⟨k, u⟩ := kv
    by_cases hk : k = key
    · simp only [List.map_cons, dictGet, if_pos hk]
      rfl
    · simp only [List.map_cons, dictGet, if_neg hk]
      exact ih

theorem dictGet_normalizedWeightsMap (w : WeightsMap) (key : String) :
    dictGet (normalizedWeightsMap w) key
      = (dictGet w key).map fun v => v / (if sumValues w = 0 then 1 else sumValues w) := by
  rw [normalizedWeightsMap]
  exact dictGet_map_value w (fun v => v / (if sumValues w = 0 then 1 else sumValues w)) key

theorem dictGet_isSome_iff (w : WeightsMap) (key : String) :
    (dictGet w key).isSome = true ↔ key ∈ w.map Prod.fst := by
  induction w with
  | nil => simp [dictGet]
  | cons kv rest ih =>
    obtain ⟨k, u⟩ := kv
    by_cases hk : k = key
    · simp [dictGet, if_pos hk, hk]
    · simp only [dictGet, if_neg hk, List.map_cons, List.mem_cons, ih]
      constructor
      · exact fun h => Or.inr h
      · rintro (h | h)
        · exact absurd h.symm hk
        · exact h

theorem normalize_bad_bounds (raw_value max_value : ℚ) :
    0 ≤ normalize_bad raw_value max_value ∧ normalize_bad raw_value max_value ≤ 100 := by
  rw [normalize_bad]
  by_cases h : max_value ≤ 0
  · rw [if_pos h]; norm_num
  · rw [if_neg h]
    push_neg at h
    have hcl : 0 ≤ clamp raw_value 0 max_value ∧ clamp raw_value 0 max_value ≤ max_value := by
      constructor
      · exact le_max_left 0 _
      · exact max_le (le_of_lt h) (min_le_left _ _)
    have hq1 : 0 ≤ clamp raw_value 0 max_value / max_value := div_nonneg hcl.1 (le_of_lt h)
    have hq2 : clamp raw_value 0 max_value / max_value ≤ 1 :=
      (div_le_one h).mpr hcl.2
    constructor <;> nlinarith

theorem normalize_good_bounds (raw_value max_value : ℚ) :
    0 ≤ normalize_good raw_value max_value ∧ normalize_good raw_value max_value ≤ 100 := by
  rw [normalize_good]
  by_cases h : max_value ≤ 0
  · rw [if_pos h]; norm_num
  · rw [if_neg h]
    push_neg at h
    have hcl : 0 ≤ clamp raw_value 0 max_value ∧ clamp raw_value 0 max_value ≤ max_value := by
      constructor
      · exact le_max_left 0 _
      · exact max_le (le_of_lt h) (min_le_left _ _)
    have hq1 : 0 ≤ clamp raw_value 0 max_value / max_value := div_nonneg hcl.1 (le_of_lt h)
    have hq2 : clamp raw_value 0 max_value / max_value ≤ 1 :=
      (div_le_one h).mpr hcl.2
    constructor <;> nlinarith

theorem roundHalfEven_bounds (x : ℚ) :
    ⌊x⌋ ≤ roundHalfEven x ∧ roundHalfEven x ≤ ⌈x⌉ := by
  rw [roundHalfEven]
  by_cases h1 : x - ⌊x⌋ < 1 / 2
  · rw [if_pos h1]
    exact ⟨le_refl _, Int.floor_le_ceil x⟩
  · rw [if_neg h1]
    push_neg at h1
    have hlt : (⌊x⌋ : ℚ) < x := by
      have := Int.sub_one_lt_floor x
      linarith
    have hceil : ⌊x⌋ + 1 ≤ ⌈x⌉ := Int.lt_ceil.mpr hlt
    by_cases h2 : 1 / 2 < x - ⌊x⌋
    · rw [if_pos h2]
      exact ⟨le_of_lt (Int.lt_succ ⌊x⌋), hceil⟩
    · rw [if_neg h2]
      by_cases h3 : ⌊x⌋ % 2 = 0
      · rw [if_pos h3]
        exact ⟨le_refl _, Int.floor_le_ceil x⟩
      · rw [if_neg h3]
        exact ⟨le_of_lt (Int.lt_succ ⌊x⌋), hceil⟩

theorem round2_bounds (x : ℚ) (h0 : 0 ≤ x) (h100 : x ≤ 100) :
    0 ≤ round2 x ∧ round2 x ≤ 100 := by
  rw [round2]
  obtain ⟨hlo, hhi⟩ := roundHalfEven_bounds (100 * x)
  have hfl : (0 : ℤ) ≤ ⌊100 * x⌋ := by
    apply Int.floor_nonneg.mpr
    nlinarith
  have hcl : ⌈100 * x⌉ ≤ 10000 := by
    apply Int.ceil_le.mpr
    push_cast
    nlinarith
  have hlo2 : (0 : ℤ) ≤ roundHalfEven (100 * x) := le_trans hfl hlo
  have hhi2 : roundHalfEven (100 * x) ≤ 10000 := le_trans hhi hcl
  constructor
  · apply div_nonneg _ (by norm_num)
    exact_mod_cast hlo2
  · rw [div_le_iff₀ (by norm_num : (0 : ℚ) < 100)]
    have : (roundHalfEven (100 * x) : ℚ) ≤ 10000 := by exact_mod_cast hhi2
    linarith

theorem dictGet_mem (w : WeightsMap) (key : String) (v : ℚ)
    (h : dictGet w key = some v) : (key, v) ∈ w := by
  induction w with
  | nil => exact absurd h (by simp [dictGet])
  | cons kv rest ih =>
    obtain ⟨k, u⟩ := kv
    by_cases hk : k = key
    · rw [dictGet, if_pos hk] at h
      rw [← hk, ← Option.some.inj h]
      exact List.mem_cons_self _ _
    · rw [dictGet, if_neg hk] at h
      exact List.mem_cons_of_mem _ (ih h)

theorem compute_score_eq_of_lookups (g c k : ℚ) (w : WeightsMap) (wg wc wk : ℚ)
    (hg : dictGet (normalizedWeightsMap w) "gwp" = some wg)
    (hc : dictGet (normalizedWeightsMap w) "circularity" = some wc)
    (hk : dictGet (normalizedWeightsMap w) "cost" = some wk) :
    compute_score g c k w = Except.ok
      (round2 (weightedComposite (normalize_bad g GWP_MAX) (normalize_good c CIRCULARITY_MAX)
          (normalize_bad k COST_MAX) wg wc wk),
        ⟨normalize_bad g GWP_MAX, normalize_good c CIRCULARITY_MAX, normalize_bad k COST_MAX⟩) := by
  simp only [compute_score, hg, hc, hk]

/-- C9: `compute_score` returns normally exactly when the weights dict
contains all three metric keys; if any of "gwp", "circularity" or "cost"
is missing it raises a `KeyError` (modelled as `Except.error`) instead of
returning a result. -/
theorem compute_score_keyerror_iff (gwp circularity cost : ℚ) (w : WeightsMap) :
    ((∃ r, compute_score gwp circularity cost w = Except.ok r) ↔
      "gwp" ∈ w.map Prod.fst ∧ "circularity" ∈ w.map Prod.fst ∧ "cost" ∈ w.map Prod.fst) ∧
    ("gwp" ∉ w.map Prod.fst ∨ "circularity" ∉ w.map Prod.fst ∨ "cost" ∉ w.map Prod.fst →
      ∃ e, compute_score gwp circularity cost w = Except.error e) := by
  have hkeys : ∀ key : String,
      (dictGet (normalizedWeightsMap w) key).isSome = true ↔ key ∈ w.map Prod.fst := by
    intro key
    rw [dictGet_normalizedWeightsMap, ← dictGet_isSome_iff w key]
    cases dictGet w key <;> simp
  rcases hg : dictGet (normalizedWeightsMap w) "gwp" with _ | wg
  · have hmg : "gwp" ∉ w.map Prod.fst := by
      intro hmem
      have := (hkeys "gwp").mpr hmem
      rw [hg] at this
      exact Bool.noConfusion this
    refine ⟨iff_of_false ?_ (fun h => hmg h.1), fun _ => ⟨"KeyError: gwp", ?_⟩⟩
    · rintro ⟨r, hr⟩
      simp [compute_score, hg] at hr
    · simp [compute_score, hg]
  rcases hc : dictGet (normalizedWeightsMap w) "circularity" with _ | wc
  · have hmc : "circularity" ∉ w.map Prod.fst := by
      intro hmem
      have := (hkeys "circularity").mpr hmem
      rw [hc] at this
      exact Bool.noConfusion this
    refine ⟨iff_of_false ?_ (fun h => hmc h.2.1), fun _ => ⟨"KeyError: circularity", ?_⟩⟩
    · rintro ⟨r, hr⟩
      simp [compute_score, hg, hc] at hr
    · simp [compute_score, hg, hc]
  rcases hk : dictGet (normalizedWeightsMap w) "cost" with _ | wk
  · have hmk : "cost" ∉ w.map Prod.fst := by
      intro hmem
      have := (hkeys "cost").mpr hmem
      rw [hk] at this
      exact Bool.noConfusion this
    refine ⟨iff_of_false ?_ (fun h => hmk h.2.2), fun _ => ⟨"KeyError: cost", ?_⟩⟩
    · rintro ⟨r, hr⟩
      simp [compute_score, hg, hc, hk] at hr
    · simp [compute_score, hg, hc, hk]
  have hmg : "gwp" ∈ w.map Prod.fst := (hkeys "gwp").mp (by rw [hg]; rfl)
  have hmc : "circularity" ∈ w.map Prod.fst := (hkeys "circularity").mp (by rw [hc]; rfl)
  have hmk : "cost" ∈ w.map Prod.fst := (hkeys "cost").mp (by rw [hk]; rfl)
  refine ⟨iff_of_true ⟨_, compute_score_eq_of_lookups gwp circularity cost w wg wc wk hg hc hk⟩
    ⟨hmg, hmc, hmk⟩, fun habs => ?_⟩
  rcases habs with h | h | h
  · exact absurd hmg h
  · exact absurd hmc h
  · exact absurd hmk h

/-- C9 witness: with an empty weights dict, `compute_score` raises. -/
theorem compute_score_keyerror_witness :
    ∃ e, compute_score 0 0 0 [] = Except.error e :=
  (compute_score_keyerror_iff 0 0 0 []).2 (Or.inl (by simp))

/-- C2 counterexample: with the three metric keys present but a negative
"gwp" weight (merged sum `0`, so the zero-sum fallback divisor `1` leaves
the weights un-normalized), the composite is `-100`, outside `[0, 100]`. -/
theorem compute_score_range_counterexample :
    compute_score 0 0 0 [("gwp", -1), ("circularity", 1), ("cost", 0)]
      = Except.ok (-100, ⟨100, 0, 100⟩) ∧ ¬ (0 : ℚ) ≤ -100 := by
  constructor
  · simp [compute_score, normalizedWeightsMap, dictGet]
    norm_num [sumValues, Int.fract, round2, roundHalfEven, weightedComposite,
      normalize_bad, normalize_good, clamp, GWP_MAX, COST_MAX, CIRCULARITY_MAX,
      Subscores.mk.injEq]
  · norm_num

/-- C2 amended: whenever every value of the weights dict is non-negative
and `compute_score` returns normally (all three metric keys present), the
returned composite lies in `[0, 100]`. -/
theorem compute_score_range_amended (g c k : ℚ) (w : WeightsMap)
    (hnn : ∀ kv ∈ w, 0 ≤ kv.2) (r : ℚ × Subscores)
    (hok : compute_score g c k w = Except.ok r) :
    0 ≤ r.1 ∧ r.1 ≤ 100 := by
  rcases hg : dictGet (normalizedWeightsMap w) "gwp" with _ | wg
  · simp [compute_score, hg] at hok
  rcases hc : dictGet (normalizedWeightsMap w) "circularity" with _ | wc
  · simp [compute_score, hg, hc] at hok
  rcases hk : dictGet (normalizedWeightsMap w) "cost" with _ | wk
  · simp [compute_score, hg, hc, hk] at hok
  rw [compute_score_eq_of_lookups g c k w wg wc wk hg hc hk] at hok
  have hr := (Except.ok.inj hok).symm
  rw [hr]
  have hg2 := hg
  have hc2 := hc
  have hk2 := hk
  rw [dictGet_normalizedWeightsMap] at hg2 hc2 hk2
  rcases hvg : dictGet w "gwp" with _ | vg
  · rw [hvg] at hg2; exact absurd hg2 (by simp)
  rcases hvc : dictGet w "circularity" with _ | vc
  · rw [hvc] at hc2; exact absurd hc2 (by simp)
  rcases hvk : dictGet w "cost" with _ | vk
  · rw [hvk] at hk2; exact absurd hk2 (by simp)
  rw [hvg] at hg2
  rw [hvc] at hc2
  rw [hvk] at hk2
  have hwg : wg = vg / (if sumValues w = 0 then 1 else sumValues w) :=
    (Option.some.inj hg2).symm
  have hwc : wc = vc / (if sumValues w = 0 then 1 else sumValues w) :=
    (Option.some.inj hc2).symm
  have hwk : wk = vk / (if sumValues w = 0 then 1 else sumValues w) :=
    (Option.some.inj hk2).symm
  have hS : 0 ≤ sumValues w := sumValues_nonneg w hnn
  have hvgnn : (0 : ℚ) ≤ vg := hnn ("gwp", vg) (dictGet_mem w "gwp" vg hvg)
  have hvcnn : (0 : ℚ) ≤ vc := hnn ("circularity", vc) (dictGet_mem w "circularity" vc hvc)
  have hvknn : (0 : ℚ) ≤ vk := hnn ("cost", vk) (dictGet_mem w "cost" vk hvk)
  have hsum3 : vg + vc + vk ≤ sumValues w :=
    three_dictGet_le_sumValues w vg vc vk hnn hvg hvc hvk
  have hT : 0 < (if sumValues w = 0 then 1 else sumValues w) := by
    by_cases h0 : sumValues w = 0
    · rw [if_pos h0]; norm_num
    · rw [if_neg h0]; exact lt_of_le_of_ne hS (Ne.symm h0)
  have hwgnn : 0 ≤ wg := hwg ▸ div_nonneg hvgnn (le_of_lt hT)
  have hwcnn : 0 ≤ wc := hwc ▸ div_nonneg hvcnn (le_of_lt hT)
  have hwknn : 0 ≤ wk := hwk ▸ div_nonneg hvknn (le_of_lt hT)
  have hwsum : wg + wc + wk ≤ 1 := by
    rw [hwg, hwc, hwk, div_add_div_same, div_add_div_same]
    by_cases h0 : sumValues w = 0
    · rw [if_pos h0]
      rw [h0] at hsum3
      linarith
    · rw [if_neg h0]
      exact (div_le_one (lt_of_le_of_ne hS (Ne.symm h0))).mpr hsum3
  obtain ⟨hsg0, hsg1⟩ := normalize_bad_bounds g GWP_MAX
  obtain ⟨hsc0, hsc1⟩ := normalize_good_bounds c CIRCULARITY_MAX
  obtain ⟨hsk0, hsk1⟩ := normalize_bad_bounds k COST_MAX
  have hcomp0 : 0 ≤ weightedComposite (normalize_bad g GWP_MAX)
      (normalize_good c CIRCULARITY_MAX) (normalize_bad k COST_MAX) wg wc wk := by
    rw [weightedComposite]
    have := mul_nonneg hsg0 hwgnn
    have := mul_nonneg hsc0 hwcnn
    have := mul_nonneg hsk0 hwknn
    linarith
  have hcomp1 : weightedComposite (normalize_bad g GWP_MAX)
      (normalize_good c CIRCULARITY_MAX) (normalize_bad k COST_MAX) wg wc wk ≤ 100 := by
    rw [weightedComposite]
    have h1 : normalize_bad g GWP_MAX * wg ≤ 100 * wg :=
      mul_le_mul_of_nonneg_right hsg1 hwgnn
    have h2 : normalize_good c CIRCULARITY_MAX * wc ≤ 100 * wc :=
      mul_le_mul_of_nonneg_right hsc1 hwcnn
    have h3 : normalize_bad k COST_MAX * wk ≤ 100 * wk :=
      mul_le_mul_of_nonneg_right hsk1 hwknn
    nlinarith
  exact round2_bounds _ hcomp0 hcomp1

/-- C2 witness: the spec scenario `gwp=5, circularity=80, cost=10` with
weights `{gwp: 0.5, circularity: 0.3, cost: 0.2}` gives composite `87`,
inside `[0, 100]`. -/
theorem compute_score_range_witness : (0 : ℚ) ≤ 87 ∧ (87 : ℚ) ≤ 100 :=
  compute_score_range_amended 5 80 10
    [("gwp", 1 / 2), ("circularity", 3 / 10), ("cost", 1 / 5)]
    (by
      intro kv hkv
      simp only [List.mem_cons, List.not_mem_nil, or_false] at hkv
      rcases hkv with rfl | rfl | rfl <;> norm_num)
    (87, ⟨90, 80, 90⟩)
    (by
      simp [compute_score, normalizedWeightsMap, dictGet]
      norm_num [sumValues, Int.fract, round2, roundHalfEven, weightedComposite,
        normalize_bad, normalize_good, clamp, GWP_MAX, COST_MAX, CIRCULARITY_MAX,
        Subscores.mk.injEq])

/-- C10 counterexample: with three metric keys, an extra positive-valued
key, and a negative "gwp" weight, the total sum is negative and the
normalized three-key weights sum to `2`, not strictly less than `1`. -/
theorem compute_score_extra_key_counterexample :
    dictGet (normalizedWeightsMap
        [("gwp", -1), ("circularity", 0), ("cost", 0), ("bonus", 1 / 2)]) "gwp" = some 2 ∧
    dictGet (normalizedWeightsMap
        [("gwp", -1), ("circularity", 0), ("cost", 0), ("bonus", 1 / 2)]) "circularity" = some 0 ∧
    dictGet (normalizedWeightsMap
        [("gwp", -1), ("circularity", 0), ("cost", 0), ("bonus", 1 / 2)]) "cost" = some 0 ∧
    ("bonus", 1 / 2) ∈
      ([("gwp", -1), ("circularity", 0), ("cost", 0), ("bonus", 1 / 2)] : WeightsMap) ∧
    (0 : ℚ) < 1 / 2 ∧
    ¬ ((2 : ℚ) + 0 + 0 < 1) := by
  refine ⟨?_, ?_, ?_, by simp, by norm_num, by norm_num⟩
  all_goals simp [normalizedWeightsMap, dictGet]
  all_goals norm_num [sumValues]

/-- C10 amended: if the weights dict holds the three metric keys plus an
extra key with positive value, and every value is non-negative, the extra
value is included in the normalizing sum, so the normalized weights
applied to the three sub-scores sum to `(vg+vc+vk)/sum < 1`, and the
pre-rounding composite used by `compute_score` is the three-key-normalized
composite scaled down by that same factor. -/
theorem compute_score_extra_key_dilutes (g c k : ℚ) (w : WeightsMap)
    (vg vc vk extra_value : ℚ) (extra_key : String)
    (hnn : ∀ kv ∈ w, 0 ≤ kv.2)
    (hg : dictGet w "gwp" = some vg)
    (hc : dictGet w "circularity" = some vc)
    (hk : dictGet w "cost" = some vk)
    (hmem : (extra_key, extra_value) ∈ w)
    (hkg : extra_key ≠ "gwp") (hkc : extra_key ≠ "circularity") (hkk : extra_key ≠ "cost")
    (hpos : 0 < extra_value) :
    ∃ wg wc wk,
      dictGet (normalizedWeightsMap w) "gwp" = some wg ∧
      dictGet (normalizedWeightsMap w) "circularity" = some wc ∧
      dictGet (normalizedWeightsMap w) "cost" = some wk ∧
      compute_score g c k w = Except.ok
        (round2 (weightedComposite (normalize_bad g GWP_MAX) (normalize_good c CIRCULARITY_MAX)
            (normalize_bad k COST_MAX) wg wc wk),
          ⟨normalize_bad g GWP_MAX, normalize_good c CIRCULARITY_MAX, normalize_bad k COST_MAX⟩) ∧
      wg + wc + wk = (vg + vc + vk) / sumValues w ∧
      wg + wc + wk < 1 ∧
      (0 < vg + vc + vk →
        weightedComposite (normalize_bad g GWP_MAX) (normalize_good c CIRCULARITY_MAX)
            (normalize_bad k COST_MAX) wg wc wk
          = ((vg + vc + vk) / sumValues w) *
            weightedComposite (normalize_bad g GWP_MAX) (normalize_good c CIRCULARITY_MAX)
              (normalize_bad k COST_MAX)
              (vg / (vg + vc + vk)) (vc / (vg + vc + vk)) (vk / (vg + vc + vk))) := by
  have hvgnn : (0 : ℚ) ≤ vg := hnn ("gwp", vg) (dictGet_mem w "gwp" vg hg)
  have hvcnn : (0 : ℚ) ≤ vc := hnn ("circularity", vc) (dictGet_mem w "circularity" vc hc)
  have hvknn : (0 : ℚ) ≤ vk := hnn ("cost", vk) (dictGet_mem w "cost" vk hk)
  have hsum4 : vg + vc + vk + extra_value ≤ sumValues w :=
    three_dictGet_extra_le_sumValues w vg vc vk extra_key extra_value hnn hg hc hk hmem
      hkg hkc hkk
  have hSpos : 0 < sumValues w := by linarith
  have hSne : sumValues w ≠ 0 := ne_of_gt hSpos
  have hT : (if sumValues w = 0 then 1 else sumValues w) = sumValues w := if_neg hSne
  refine ⟨vg / sumValues w, vc / sumValues w, vk / sumValues w, ?_, ?_, ?_, ?_, ?_, ?_, ?_⟩
  · rw [dictGet_normalizedWeightsMap, hg, hT]
    rfl
  · rw [dictGet_normalizedWeightsMap, hc, hT]
    rfl
  · rw [dictGet_normalizedWeightsMap, hk, hT]
    rfl
  · exact compute_score_eq_of_lookups g c k w _ _ _
      (by rw [dictGet_normalizedWeightsMap, hg, hT]; rfl)
      (by rw [dictGet_normalizedWeightsMap, hc, hT]; rfl)
      (by rw [dictGet_normalizedWeightsMap, hk, hT]; rfl)
  · rw [div_add_div_same, div_add_div_same]
  · rw [div_add_div_same, div_add_div_same]
    exact (div_lt_one hSpos).mpr (by linarith)
  · intro h3
    have h3ne : vg + vc + vk ≠ 0 := ne_of_gt h3
    rw [weightedComposite, weightedComposite]
    field_simp
    ring

/-- C10 witness: adding an extra key "marketing" with weight `0.5` to the
default weight dict dilutes the three-key normalized weights below `1`. -/
theorem compute_score_extra_key_dilutes_witness :
    ∃ wg wc wk,
      dictGet (normalizedWeightsMap
          [("gwp", 1 / 2), ("circularity", 3 / 10), ("cost", 1 / 5), ("marketing", 1 / 2)])
          "gwp" = some wg ∧
      dictGet (normalizedWeightsMap
          [("gwp", 1 / 2), ("circularity", 3 / 10), ("cost", 1 / 5), ("marketing", 1 / 2)])
          "circularity" = some wc ∧
      dictGet (normalizedWeightsMap
          [("gwp", 1 / 2), ("circularity", 3 / 10), ("cost", 1 / 5), ("marketing", 1 / 2)])
          "cost" = some wk ∧
      compute_score 5 80 10
          [("gwp", 1 / 2), ("circularity", 3 / 10), ("cost", 1 / 5), ("marketing", 1 / 2)]
        = Except.ok
          (round2 (weightedComposite (normalize_bad 5 GWP_MAX)
              (normalize_good 80 CIRCULARITY_MAX) (normalize_bad 10 COST_MAX) wg wc wk),
            ⟨normalize_bad 5 GWP_MAX, normalize_good 80 CIRCULARITY_MAX,
              normalize_bad 10 COST_MAX⟩) ∧
      wg + wc + wk = (1 / 2 + 3 / 10 + 1 / 5) / sumValues
          [("gwp", 1 / 2), ("circularity", 3 / 10), ("cost", 1 / 5), ("marketing", 1 / 2)] ∧
      wg + wc + wk < 1 ∧
      ((0 : ℚ) < 1 / 2 + 3 / 10 + 1 / 5 →
        weightedComposite (normalize_bad 5 GWP_MAX) (normalize_good 80 CIRCULARITY_MAX)
            (normalize_bad 10 COST_MAX) wg wc wk
          = ((1 / 2 + 3 / 10 + 1 / 5) / sumValues
              [("gwp", 1 / 2), ("circularity", 3 / 10), ("cost", 1 / 5), ("marketing", 1 / 2)]) *
            weightedComposite (normalize_bad 5 GWP_MAX) (normalize_good 80 CIRCULARITY_MAX)
              (normalize_bad 10 COST_MAX)
              ((1 / 2) / (1 / 2 + 3 / 10 + 1 / 5)) ((3 / 10) / (1 / 2 + 3 / 10 + 1 / 5))
              ((1 / 5) / (1 / 2 + 3 / 10 + 1 / 5))) :=
  compute_score_extra_key_dilutes 5 80 10
    [("gwp", 1 / 2), ("circularity", 3 / 10), ("cost", 1 / 5), ("marketing", 1 / 2)]
    (1 / 2) (3 / 10) (1 / 5) (1 / 2) "marketing"
    (by
      intro kv hkv
      simp only [List.mem_cons, List.not_mem_nil, or_false] at hkv
      rcases hkv with rfl | rfl | rfl | rfl <;> norm_num)
    (by simp [dictGet])
    (by simp [dictGet])
    (by simp [dictGet])
    (by simp)
    (by decide) (by decide) (by decide)
    (by norm_num)

/-- C4 witness: a payload triggering no rule yields exactly the fallback. -/
theorem rule_based_suggestions_fallback_witness :
    rule_based_suggestions ⟨"sea", some [], "compostable", some 0, some 80, some 0, some 0⟩
      = [fallbackMessage] :=
  (rule_based_suggestions_fallback_iff
      ⟨"sea", some [], "compostable", some 0, some 80, some 0, some 0⟩).2.mpr (by
    intro r hr
    simp only [RULES, List.mem_cons, List.not_mem_nil, or_false] at hr
    rcases hr with rfl | rfl | rfl | rfl | rfl | rfl | rfl | rfl | rfl | rfl | rfl <;> decide)
